import Mathlib

set_option linter.unusedSectionVars false

/-!
Shallow embedding of the Manacher exact-palindrome index from
src/string/manacher.rs, together with a verification of the behavioural
claims made about it.  The input sequence is modelled as a `List α` for a
type `α` with decidable equality (Rust `T: Eq + Copy`); the radius table is
a `List Nat`; Rust `Range<usize>` values are modelled as pairs `Nat × Nat`
(start, end); functions that can fail a Rust assertion or index out of
bounds return `Option`.  The `while` loops of the source are embedded as
fuel-based recursions (the fuel is always provably sufficient), so that all
definitions reduce in the kernel.
-/

/-- `fn ti_to_si(ti: usize) -> usize { (ti - 1) / 2 }` -/
def ti_to_si (ti : Nat) : Nat := (ti - 1) / 2

/-- `fn si_to_ti(si: usize) -> usize { 2 * si + 1 }` -/
def si_to_ti (si : Nat) : Nat := 2 * si + 1

/-- `enum ManacherValue<T> { Sep, Char(T) }` -/
inductive ManacherValue (α : Type) where
  | sep : ManacherValue α
  | char : α → ManacherValue α
deriving DecidableEq, Repr

variable {α : Type} [DecidableEq α] [Inhabited α]

/-- `ManacherString::len`: the transformed view has length `2n + 1`. -/
def msLen (s : List α) : Nat := s.length * 2 + 1

/-- `ManacherString::get`: separator at even transformed index, the source
element at `(ti-1)/2` at odd transformed index.  The Rust code asserts
`ti < self.len()` and then indexes the slice; for in-range `ti` (which is
proved for every call site, see the safety claim) the `getD` below agrees
with the slice access, so the embedding is total with a junk default that
is never reached. -/
def msGet (s : List α) (ti : Nat) : ManacherValue α :=
  if ti % 2 = 0 then ManacherValue.sep
  else ManacherValue.char (s.getD (ti_to_si ti) default)

/-- `ManacherString::is_equal(ti, tj)`. -/
def is_equal (s : List α) (ti tj : Nat) : Bool :=
  decide (msGet s ti = msGet s tj)

/-- The condition of the expansion `while` loop in `Manacher::new`:
`i + delta < t_len && delta <= i && t.is_equal(i + delta, i - delta)`
(the `&&` short-circuits, so `is_equal` is only consulted when both bounds
checks passed). -/
def probeOk (s : List α) (i d : Nat) : Bool :=
  decide (i + d < msLen s) && decide (d ≤ i) && is_equal s (i + d) (i - d)

/-- Fuel-based unfolding of the expansion `while` loop: starting from
offset `d`, keep incrementing while the probe succeeds, and return the
first offset at which the probe fails.  `expand` below supplies fuel that
is provably sufficient. -/
def expandFuel (s : List α) (i : Nat) : Nat → Nat → Nat
  | 0, d => d
  | fuel + 1, d => if probeOk s i d then expandFuel s i fuel (d + 1) else d

/-- The expansion loop of `Manacher::new`: from starting offset `d`, the
first offset at which the probe fails. -/
def expand (s : List α) (i d : Nat) : Nat := expandFuel s i (msLen s) d

/-- Instrumentation of the same loop: the list of offsets at which the
loop condition is evaluated (every probed offset, the final failing one
included). -/
def expandTraceFuel (s : List α) (i : Nat) : Nat → Nat → List Nat
  | 0, d => [d]
  | fuel + 1, d =>
      if probeOk s i d then d :: expandTraceFuel s i fuel (d + 1) else [d]

/-- The offsets probed by the expansion loop of `Manacher::new` when it is
started at offset `d`. -/
def expandTrace (s : List α) (i d : Nat) : List Nat :=
  expandTraceFuel s i (msLen s) d

/-- The mutable state of the construction loop in `Manacher::new`:
the radius vector built so far plus `center` and `right`. -/
structure MState where
  ans : List Nat
  center : Nat
  right : Nat
deriving Repr, DecidableEq

/-- The initial offset of the expansion attempt, exactly as computed at
the top of the loop body of `Manacher::new`:
`if i >= right { 1 } else { ans[2*center - i].min(right - i) }`. -/
def seedDelta (st : MState) (i : Nat) : Nat :=
  if st.right ≤ i then 1
  else min (st.ans.getD (2 * st.center - i) 0) (st.right - i)

/-- One iteration of the `for i in 1..t_len` loop of `Manacher::new`. -/
def manacherStep (s : List α) (st : MState) (i : Nat) : MState :=
  let d := expand s i (seedDelta st i)
  let radius := d - 1
  let new_right := i + radius
  if st.right < new_right then ⟨st.ans ++ [radius], i, new_right⟩
  else ⟨st.ans ++ [radius], st.center, st.right⟩

/-- The state after running the construction loop for indices `1..=m`,
starting from `ans = vec![0]`, `center = 0`, `right = 0`. -/
def manacherRun (s : List α) (m : Nat) : MState :=
  (List.range' 1 m).foldl (manacherStep s) ⟨[0], 0, 0⟩

/-- `Manacher::new`: the completed radius table (the loop runs for
`i in 1..t_len`, i.e. for the `msLen s - 1` indices `1..=2n`). -/
def manacherNew (s : List α) : List Nat :=
  (manacherRun s (msLen s - 1)).ans

/-- `Manacher::max_palindrome_len`: `self.0.iter().max().unwrap()`.
The table is never empty (it always contains the leading 0), on such
tables the fold below equals the maximum the iterator returns. -/
def max_palindrome_len (tbl : List Nat) : Nat := tbl.foldr max 0

/-- Fuel-based unfolding of `ManacherIter::next` driven to exhaustion:
the whole stream of ranges the iterator yields, scanning transformed
indices from `i` upwards.  A position `ti` yields
`start_si..start_si + len` with `start_si = ti_to_si(ti + 1 - len)` iff
`rad >= len && rad % 2 == len % 2`. -/
def iterGo (tbl : List Nat) (len : Nat) : Nat → Nat → List (Nat × Nat)
  | 0, _ => []
  | fuel + 1, i =>
      if i < tbl.length then
        let rad := tbl.getD i 0
        if len ≤ rad ∧ rad % 2 = len % 2 then
          (ti_to_si (i + 1 - len), ti_to_si (i + 1 - len) + len) ::
            iterGo tbl len fuel (i + 1)
        else iterGo tbl len fuel (i + 1)
      else []

/-- `Manacher::iter_of_len(len)`, taken as the full list of yielded
ranges. -/
def iter_of_len (tbl : List Nat) (len : Nat) : List (Nat × Nat) :=
  iterGo tbl len tbl.length 0

/-- `Manacher::iter_of_max()`, taken as the full list of yielded
ranges. -/
def iter_of_max (tbl : List Nat) : List (Nat × Nat) :=
  iterGo tbl (max_palindrome_len tbl) tbl.length 0

/-- `Manacher::odd_longest_at(si)`.  The Rust code indexes
`self.0[si_to_ti(si)]`, which panics when out of range; the embedding
returns `none` in that case. -/
def odd_longest_at (tbl : List Nat) (si : Nat) : Option (Nat × Nat) :=
  if si_to_ti si < tbl.length then
    let rad := tbl.getD (si_to_ti si) 0 / 2
    some (si - rad, si + rad + 1)
  else none

/-- `Manacher::even_longest_at(si, next_si)`.  The two Rust assertions
(`si + 1 == next_si` and `ti < self.0.len()`) become `none` on failure. -/
def even_longest_at (tbl : List Nat) (si next_si : Nat) : Option (Nat × Nat) :=
  if si + 1 = next_si then
    let ti := si_to_ti si + 1
    if ti < tbl.length then
      let rad := tbl.getD ti 0 / 2
      some (next_si - rad, next_si + rad)
    else none
  else none

/-- `Manacher::is_palindrome(sl, sr)` over the half-open original range
`[sl, sr)`; `none` when the underlying center lookup hits an assertion or
an out-of-bounds table access. -/
def is_palindrome (tbl : List Nat) (sl sr : Nat) : Option Bool :=
  if sr ≤ sl then some true
  else
    let slen := sr - sl
    let orange :=
      if slen % 2 = 0 then
        let center := sl + slen / 2 - 1
        even_longest_at tbl center (center + 1)
      else
        let center := sl + slen / 2
        odd_longest_at tbl center
    orange.map (fun r => decide (slen ≤ r.2 - r.1))

/-- Fuel-based unfolding of the `for d in 0..` loop of
`naive_palindrome`; `naive_palindrome` below supplies fuel that is
provably sufficient, so the fuel-exhausted branch is never reached. -/
def naiveGo (s : List α) (l r : Nat) : Nat → Nat → Bool
  | 0, _ => true
  | fuel + 1, d =>
      if r ≤ 2 * d + 1 + l then true
      else if s.getD (l + d) default ≠ s.getD (r - 1 - d) default then false
      else naiveGo s l r fuel (d + 1)

/-- `fn naive_palindrome<T: Eq>(s: &[T], l: usize, r: usize) -> bool`:
the brute-force two-pointer check over the half-open range `[l, r)`. -/
def naive_palindrome (s : List α) (l r : Nat) : Bool :=
  naiveGo s l r r 0

/-! ### Specification-side notions (ground truth the theorems compare to) -/

/-- The probe at every offset `k ≤ d` succeeds: the transformed window of
radius `d` centered at `i` is in bounds and mirror-symmetric. -/
def palAt (s : List α) (i d : Nat) : Prop :=
  ∀ k, k ≤ d → probeOk s i k = true

instance (s : List α) (i d : Nat) : Decidable (palAt s i d) :=
  Nat.decidableBallLE d (fun k _ => probeOk s i k = true)

/-- The true maximal radius at transformed position `i`: the greatest `d`
(for `i < msLen s` there always is one, since `d = 0` qualifies) such that
the window of radius `d` centered at `i` is in bounds and symmetric. -/
def trueRadius (s : List α) (i : Nat) : Nat :=
  Nat.findGreatest (palAt s i) (msLen s)

/-- The substring of `s` on the half-open range `[l, r)` (what
`&s[l..r]` denotes in Rust). -/
def extract (s : List α) (l r : Nat) : List α :=
  (s.drop l).take (r - l)

/-- There is a palindromic substring of `s` of length exactly `L`
(a substring equal to its own reverse). -/
def hasPalOfLen (s : List α) (L : Nat) : Bool :=
  (List.range (s.length + 1)).any fun l =>
    decide (l + L ≤ s.length) &&
      decide (extract s l (l + L) = (extract s l (l + L)).reverse)

/-- Modelled from the spec: the length of the longest contiguous
substring of `s` that is equal to its own reverse. -/
def longestPalSubLen (s : List α) : Nat :=
  Nat.findGreatest (fun L => hasPalOfLen s L = true) s.length

/-! ### Basic facts about probes, `palAt` and `trueRadius` -/

theorem probeOk_iff (s : List α) (i k : Nat) :
    probeOk s i k = true ↔
      (i + k < msLen s ∧ k ≤ i) ∧ msGet s (i + k) = msGet s (i - k) := by
  simp [probeOk, is_equal, Bool.and_eq_true, decide_eq_true_eq]

theorem palAt_mono {s : List α} {i d e : Nat} (h : palAt s i d) (hde : e ≤ d) :
    palAt s i e := fun k hk => h k (le_trans hk hde)

theorem palAt_zero (s : List α) (i : Nat) : palAt s i 0 ↔ i < msLen s := by
  constructor
  · intro h
    have h0 := (probeOk_iff s i 0).mp (h 0 (le_refl 0))
    omega
  · intro hi k hk
    have hk0 : k = 0 := Nat.le_zero.mp hk
    subst hk0
    exact (probeOk_iff s i 0).mpr ⟨⟨by omega, Nat.zero_le i⟩, by simp⟩

theorem palAt_bounds {s : List α} {i d : Nat} (h : palAt s i d) :
    d ≤ i ∧ i + d < msLen s := by
  have hd := (probeOk_iff s i d).mp (h d (le_refl d))
  exact ⟨hd.1.2, hd.1.1⟩

theorem msLen_pos (s : List α) : 0 < msLen s :=
  Nat.succ_pos _

theorem palAt_trueRadius {s : List α} {i : Nat} (hi : i < msLen s) :
    palAt s i (trueRadius s i) :=
  Nat.findGreatest_spec (Nat.zero_le (msLen s)) ((palAt_zero s i).mpr hi)

theorem le_trueRadius {s : List α} {i d : Nat} (h : palAt s i d) :
    d ≤ trueRadius s i := by
  have hb := palAt_bounds h
  exact Nat.le_findGreatest (by omega) h

theorem trueRadius_le {s : List α} {i : Nat} (hi : i < msLen s) :
    trueRadius s i ≤ i :=
  (palAt_bounds (palAt_trueRadius hi)).1

theorem trueRadius_add_lt {s : List α} {i : Nat} (hi : i < msLen s) :
    i + trueRadius s i < msLen s :=
  (palAt_bounds (palAt_trueRadius hi)).2

theorem probeOk_succ_false {s : List α} {i : Nat} (hi : i < msLen s) :
    probeOk s i (trueRadius s i + 1) = false := by
  by_contra h
  have h' : probeOk s i (trueRadius s i + 1) = true := by
    cases hp : probeOk s i (trueRadius s i + 1) with
    | true => rfl
    | false => exact absurd hp h
  have hpal : palAt s i (trueRadius s i + 1) := by
    intro k hk
    rcases Nat.lt_or_ge k (trueRadius s i + 1) with hlt | hge
    · exact palAt_trueRadius hi k (by omega)
    · have : k = trueRadius s i + 1 := by omega
      subst this; exact h'
  have := le_trueRadius hpal
  omega

theorem trueRadius_zero (s : List α) : trueRadius s 0 = 0 := by
  have h : trueRadius s 0 ≤ 0 := trueRadius_le (msLen_pos s)
  omega

theorem trueRadius_le_length {s : List α} {i : Nat} (hi : i < msLen s) :
    trueRadius s i ≤ s.length := by
  have h1 := trueRadius_le hi
  have h2 := trueRadius_add_lt hi
  simp only [msLen] at h2 hi
  omega

theorem trueRadius_parity {s : List α} {i : Nat} (hi : i < msLen s) :
    trueRadius s i % 2 = i % 2 := by
  by_contra hne
  set R := trueRadius s i with hR
  have h1 := trueRadius_le hi
  have h2 := trueRadius_add_lt hi
  have hfail := probeOk_succ_false hi
  have hok : probeOk s i (R + 1) = true := by
    rw [probeOk_iff]
    have hlen : i + R ≠ msLen s - 1 := by
      simp only [msLen] at *
      omega
    refine ⟨⟨by simp only [msLen] at *; omega, by omega⟩, ?_⟩
    have hev1 : (i + (R + 1)) % 2 = 0 := by omega
    have hev2 : (i - (R + 1)) % 2 = 0 := by omega
    simp [msGet, hev1, hev2]
  rw [hfail] at hok
  exact Bool.false_ne_true hok

/-! ### The expansion loop computes the true radius -/

theorem expandFuel_ge (s : List α) (i : Nat) :
    ∀ fuel d, d ≤ expandFuel s i fuel d := by
  intro fuel
  induction fuel with
  | zero => intro d; simp [expandFuel]
  | succ n ih =>
      intro d
      simp only [expandFuel]
      by_cases h : probeOk s i d = true
      · rw [if_pos h]
        have := ih (d + 1)
        omega
      · rw [if_neg h]

theorem expandFuel_eq {s : List α} {i : Nat} (hi : i < msLen s) :
    ∀ fuel d, d ≤ trueRadius s i + 1 → trueRadius s i + 1 - d ≤ fuel →
      expandFuel s i fuel d = trueRadius s i + 1 := by
  intro fuel
  induction fuel with
  | zero =>
      intro d hd hfuel
      have : d = trueRadius s i + 1 := by omega
      subst this
      simp [expandFuel]
  | succ n ih =>
      intro d hd hfuel
      simp only [expandFuel]
      rcases Nat.lt_or_ge d (trueRadius s i + 1) with hlt | hge
      · have hok : probeOk s i d = true := palAt_trueRadius hi d (by omega)
        rw [if_pos hok]
        exact ih (d + 1) (by omega) (by omega)
      · have : d = trueRadius s i + 1 := by omega
        subst this
        rw [if_neg (by simp [probeOk_succ_false hi])]

theorem expand_eq {s : List α} {i d : Nat} (hi : i < msLen s)
    (hd : d ≤ trueRadius s i + 1) : expand s i d = trueRadius s i + 1 := by
  have h1 := trueRadius_le hi
  exact expandFuel_eq hi (msLen s) d hd (by omega)

/-! ### The mirror argument -/

theorem palAt_symm {s : List α} {c r : Nat} (h : palAt s c r) :
    ∀ a b, a + b = 2 * c → c ≤ a → a ≤ c + r → msGet s a = msGet s b := by
  intro a b hab hca hacr
  have hk := h (a - c) (by omega)
  rw [probeOk_iff] at hk
  have h1 : c + (a - c) = a := by omega
  have h2 : c - (a - c) = b := by omega
  rw [h1, h2] at hk
  exact hk.2

/-- If `i` lies strictly inside the best-known window `[2c − right, right]`
(with `right = c + trueRadius s c`), then every offset up to
`min(radius[mirror], right − i)` probes a pair of equal transformed
values: exactly the pairs certified by reflecting across `c`. -/
theorem mirror_probe {s : List α} {c i d : Nat}
    (hci : c < i) (hir : i < c + trueRadius s c) (hcl : c < msLen s)
    (hd : d ≤ min (trueRadius s (2 * c - i)) (c + trueRadius s c - i)) :
    probeOk s i d = true := by
  have hpc : palAt s c (trueRadius s c) := palAt_trueRadius hcl
  have hrc_le : trueRadius s c ≤ c := trueRadius_le hcl
  have hbound : c + trueRadius s c < msLen s := trueRadius_add_lt hcl
  have hd2 : d ≤ c + trueRadius s c - i := le_trans hd (min_le_right _ _)
  have hmir_lt : 2 * c - i < msLen s := by omega
  have hpm : palAt s (2 * c - i) (trueRadius s (2 * c - i)) :=
    palAt_trueRadius hmir_lt
  have hd1 : d ≤ trueRadius s (2 * c - i) := le_trans hd (min_le_left _ _)
  rw [probeOk_iff]
  refine ⟨⟨by omega, by omega⟩, ?_⟩
  have e1 : msGet s (i + d) = msGet s (2 * c - (i + d)) :=
    palAt_symm hpc (i + d) (2 * c - (i + d)) (by omega) (by omega) (by omega)
  have e2 : msGet s (2 * c - i + d) = msGet s (2 * c - i - d) := by
    have hk := hpm d hd1
    rw [probeOk_iff] at hk
    exact hk.2
  have hmd : 2 * c - (i + d) = 2 * c - i - d := by omega
  rcases le_or_lt c (2 * c - i + d) with hcase | hcase
  · have e3 : msGet s (2 * c - i + d) = msGet s (i - d) :=
      palAt_symm hpc (2 * c - i + d) (i - d) (by omega) hcase (by omega)
    rw [e1, hmd, ← e2, e3]
  · have e3 : msGet s (i - d) = msGet s (2 * c - i + d) :=
      palAt_symm hpc (i - d) (2 * c - i + d) (by omega) (by omega) (by omega)
    rw [e1, hmd, ← e2, e3]

/-! ### The construction loop invariant -/

/-- Invariant of the `for i in 1..t_len` loop of `Manacher::new`, holding
at the top of the iteration for index `i`: the table built so far holds
the true maximal radii, and `(center, right)` name a genuine palindromic
window with `right = center + radius[center]`. -/
def LoopInv (s : List α) (st : MState) (i : Nat) : Prop :=
  st.ans.length = i ∧
  (∀ j, j < i → st.ans.getD j 0 = trueRadius s j) ∧
  st.center < i ∧
  st.right = st.center + trueRadius s st.center

theorem manacherStep_eq (s : List α) (st : MState) (i : Nat) :
    manacherStep s st i =
      if st.right < i + (expand s i (seedDelta st i) - 1) then
        ⟨st.ans ++ [expand s i (seedDelta st i) - 1], i,
          i + (expand s i (seedDelta st i) - 1)⟩
      else ⟨st.ans ++ [expand s i (seedDelta st i) - 1], st.center, st.right⟩ :=
  rfl

/-- Every expansion in the loop lands on the true maximal radius: with the
invariant in force, `expand` started at the seeded offset returns
`radius[i] + 1`. -/
theorem seed_expand_eq {s : List α} {st : MState} {i : Nat}
    (hInv : LoopInv s st i) (hi1 : 1 ≤ i) (hi2 : i < msLen s) :
    expand s i (seedDelta st i) = trueRadius s i + 1 := by
  obtain ⟨hlen, hans, hc, hr⟩ := hInv
  by_cases hcase : st.right ≤ i
  · rw [seedDelta, if_pos hcase]
    exact expand_eq hi2 (by omega)
  · push_neg at hcase
    rw [seedDelta, if_neg (by omega)]
    have hcc : st.center < msLen s := by omega
    have hrc := trueRadius_le hcc
    have hmirlt : 2 * st.center - i < i := by omega
    rw [hans (2 * st.center - i) (by omega)]
    have hpal : palAt s i
        (min (trueRadius s (2 * st.center - i)) (st.right - i)) := by
      intro k hk
      exact mirror_probe hc (by omega) hcc (by omega)
    exact expand_eq hi2 (by have := le_trueRadius hpal; omega)

theorem manacherStep_inv {s : List α} {st : MState} {i : Nat}
    (hInv : LoopInv s st i) (hi1 : 1 ≤ i) (hi2 : i < msLen s) :
    LoopInv s (manacherStep s st i) (i + 1) := by
  have hradius := seed_expand_eq hInv hi1 hi2
  obtain ⟨hlen, hans, hc, hr⟩ := hInv
  rw [manacherStep_eq, hradius]
  have hcancel : trueRadius s i + 1 - 1 = trueRadius s i := by omega
  rw [hcancel]
  have hans' : ∀ j, j < i + 1 →
      (st.ans ++ [trueRadius s i]).getD j 0 = trueRadius s j := by
    intro j hj
    rcases Nat.lt_or_ge j i with hji | hji
    · rw [List.getD_append _ _ _ _ (by omega)]
      exact hans j hji
    · have hji' : j = i := by omega
      subst hji'
      rw [List.getD_append_right _ _ _ _ (by omega), hlen]
      simp
  by_cases hbr : st.right < i + trueRadius s i
  · rw [if_pos hbr]
    exact ⟨by simp [hlen], hans', show i < i + 1 by omega, rfl⟩
  · rw [if_neg hbr]
    exact ⟨by simp [hlen], hans', show st.center < i + 1 by omega, hr⟩

theorem manacherRun_inv (s : List α) :
    ∀ m, m < msLen s → LoopInv s (manacherRun s m) (m + 1) := by
  intro m
  induction m with
  | zero =>
      intro _
      refine ⟨rfl, ?_, Nat.zero_lt_one, by simp [manacherRun, trueRadius_zero]⟩
      intro j hj
      have hj0 : j = 0 := by omega
      subst hj0
      simp [manacherRun, trueRadius_zero]
  | succ m ih =>
      intro h
      have hrange : List.range' 1 (m + 1) = List.range' 1 m ++ [1 + m] := by
        have hrc : List.range' 1 (m + 1) = List.range' 1 m ++ [1 + 1 * m] :=
          List.range'_concat 1 m
        simpa using hrc
      have hstep : manacherRun s (m + 1) =
          manacherStep s (manacherRun s m) (1 + m) := by
        rw [manacherRun, hrange, List.foldl_append]
        rfl
      rw [hstep]
      have h1m : 1 + m = m + 1 := by omega
      rw [h1m]
      exact manacherStep_inv (ih (by omega)) (by omega) h

theorem manacherNew_length (s : List α) : (manacherNew s).length = msLen s := by
  have h := (manacherRun_inv s (msLen s - 1)
    (by have := msLen_pos s; omega)).1
  rw [manacherNew, h]
  have := msLen_pos s
  omega

/-- Total correctness of the radius table: every entry is the true
maximal (in-bounds, symmetric) window radius at its transformed index. -/
theorem manacherNew_getD (s : List α) {ti : Nat} (h : ti < msLen s) :
    (manacherNew s).getD ti 0 = trueRadius s ti := by
  have hinv := manacherRun_inv s (msLen s - 1) (by have := msLen_pos s; omega)
  exact hinv.2.1 ti (by have := msLen_pos s; omega)

/-! ### Transformed view vs. original substrings -/

theorem char_inj {a b : α}
    (h : ManacherValue.char a = ManacherValue.char b) : a = b := by
  injection h

theorem msGet_odd (s : List α) (x : Nat) :
    msGet s (2 * x + 1) = ManacherValue.char (s.getD x default) := by
  rw [msGet, if_neg (by omega)]
  have hx : ti_to_si (2 * x + 1) = x := by
    unfold ti_to_si
    omega
  rw [hx]

theorem msGet_even (s : List α) (x : Nat) :
    msGet s (2 * x) = ManacherValue.sep := by
  rw [msGet, if_pos (by omega)]

theorem extract_length {s : List α} {l r : Nat} (hlr : l ≤ r)
    (hrn : r ≤ s.length) : (extract s l r).length = r - l := by
  simp only [extract, List.length_take, List.length_drop]
  omega

theorem extract_getD {s : List α} {l r j : Nat} (hlr : l ≤ r)
    (hrn : r ≤ s.length) (hj : j < r - l) :
    (extract s l r).getD j default = s.getD (l + j) default := by
  have hlen := extract_length hlr hrn
  have hjs : l + j < s.length := by omega
  rw [List.getD_eq_getElem _ _ (by omega), List.getD_eq_getElem _ _ hjs]
  simp only [extract]
  rw [List.getElem_take, List.getElem_drop]

theorem getD_reverse (L : List α) {j : Nat} (hj : j < L.length) :
    L.reverse.getD j default = L.getD (L.length - 1 - j) default := by
  rw [List.getD_eq_getElem _ _ (by simpa using hj),
    List.getD_eq_getElem _ _ (by omega), List.getElem_reverse]

theorem listPal_iff (L : List α) :
    L = L.reverse ↔
      ∀ j, j < L.length →
        L.getD j default = L.getD (L.length - 1 - j) default := by
  constructor
  · intro h j hj
    have hc := congrArg (fun t => t.getD j default) h
    simp only at hc
    rw [hc, getD_reverse L hj]
  · intro h
    refine List.ext_getElem (by simp) ?_
    intro n h1 h2
    have hn : n < L.length := h1
    have := h n hn
    rw [List.getD_eq_getElem _ _ hn, List.getD_eq_getElem _ _ (by omega)]
      at this
    rw [List.getElem_reverse]
    exact this

/-- A substring equals its own reverse iff the outside-in pairs of its
elements agree. -/
theorem pal_pointwise {s : List α} {l r : Nat} (hlr : l ≤ r)
    (hrn : r ≤ s.length) :
    extract s l r = (extract s l r).reverse ↔
      ∀ j, j < r - l →
        s.getD (l + j) default = s.getD (r - 1 - j) default := by
  rw [listPal_iff]
  have hlen := extract_length hlr hrn
  constructor
  · intro h j hj
    have := h j (by omega)
    rw [extract_getD hlr hrn (by omega), hlen,
      extract_getD hlr hrn (by omega)] at this
    have harg : l + (r - l - 1 - j) = r - 1 - j := by omega
    rw [harg] at this
    exact this
  · intro h j hj
    rw [hlen] at hj
    rw [extract_getD hlr hrn (by omega), hlen,
      extract_getD hlr hrn (by omega)]
    have harg : l + (r - l - 1 - j) = r - 1 - j := by omega
    rw [harg]
    exact h j hj

/-- The transformed window centered at `l + r` with radius `r − l` is
symmetric iff the outside-in pairs of `s` on `[l, r)` agree. -/
theorem palAt_pointwise {s : List α} {l r : Nat} (hlr : l ≤ r)
    (hrn : r ≤ s.length) :
    palAt s (l + r) (r - l) ↔
      ∀ j, j < r - l →
        s.getD (l + j) default = s.getD (r - 1 - j) default := by
  constructor
  · intro h j hj
    set k := r - l - 2 * j - 1 with hk
    by_cases hcase : 2 * j + 1 ≤ r - l
    · have hp := h k (by omega)
      rw [probeOk_iff] at hp
      obtain ⟨-, heq⟩ := hp
      rw [show l + r + k = 2 * (r - 1 - j) + 1 by omega,
        show l + r - k = 2 * (l + j) + 1 by omega,
        msGet_odd, msGet_odd] at heq
      exact (char_inj heq).symm
    · set k2 := 2 * j + 1 - (r - l) with hk2
      have hp := h k2 (by omega)
      rw [probeOk_iff] at hp
      obtain ⟨-, heq⟩ := hp
      rw [show l + r + k2 = 2 * (l + j) + 1 by omega,
        show l + r - k2 = 2 * (r - 1 - j) + 1 by omega,
        msGet_odd, msGet_odd] at heq
      exact char_inj heq
  · intro h k hk
    rw [probeOk_iff]
    refine ⟨⟨?_, ?_⟩, ?_⟩
    · simp only [msLen]
      omega
    · omega
    · by_cases hpar : (l + r + k) % 2 = 0
      · rw [show l + r + k = 2 * ((l + r + k) / 2) by omega,
          show l + r - k = 2 * ((l + r - k) / 2) by omega,
          msGet_even, msGet_even]
      · set j := (r - l - k - 1) / 2 with hj
        have hklt : k < r - l := by omega
        have hjlt : j < r - l := by omega
        have he := h j hjlt
        rw [show l + r + k = 2 * (r - 1 - j) + 1 by omega,
          show l + r - k = 2 * (l + j) + 1 by omega,
          msGet_odd, msGet_odd]
        exact congrArg ManacherValue.char he.symm

/-- The substring of `s` on `[l, r)` is a palindrome iff the transformed
window centered at `l + r` with radius `r − l` is symmetric. -/
theorem pal_iff_palAt {s : List α} {l r : Nat} (hlr : l ≤ r)
    (hrn : r ≤ s.length) :
    extract s l r = (extract s l r).reverse ↔ palAt s (l + r) (r - l) :=
  (pal_pointwise hlr hrn).trans (palAt_pointwise hlr hrn).symm

/-! ### Consequences for the completed table -/

theorem manacherNew_parity (s : List α) {ti : Nat} (h : ti < msLen s) :
    (manacherNew s).getD ti 0 % 2 = ti % 2 := by
  rw [manacherNew_getD s h]
  exact trueRadius_parity h

theorem manacherNew_zero (s : List α) : (manacherNew s).getD 0 0 = 0 := by
  rw [manacherNew_getD s (msLen_pos s), trueRadius_zero]

/-- The maximal symmetric window at `ti` projects to a palindromic
substring of `s` in original coordinates, of length `trueRadius s ti`. -/
theorem trueRadius_realizes (s : List α) {ti : Nat} (h : ti < msLen s) :
    ∃ l r, l ≤ r ∧ r ≤ s.length ∧ l + r = ti ∧ r - l = trueRadius s ti ∧
      extract s l r = (extract s l r).reverse := by
  have hpar := trueRadius_parity h
  have hle := trueRadius_le h
  have hlt := trueRadius_add_lt h
  simp only [msLen] at hlt h
  refine ⟨(ti - trueRadius s ti) / 2, (ti + trueRadius s ti) / 2,
    by omega, by omega, by omega, by omega, ?_⟩
  have hsum : (ti - trueRadius s ti) / 2 + (ti + trueRadius s ti) / 2 = ti := by
    omega
  have hdiff : (ti + trueRadius s ti) / 2 - (ti - trueRadius s ti) / 2 =
      trueRadius s ti := by omega
  rw [pal_iff_palAt (by omega) (by omega), hsum, hdiff]
  exact palAt_trueRadius (by simp only [msLen]; omega)

theorem foldr_max_le {L : List Nat} {x : Nat} (h : x ∈ L) :
    x ≤ L.foldr max 0 := by
  induction L with
  | nil => cases h
  | cons a t ih =>
      rcases List.mem_cons.mp h with h | h
      · subst h
        simp only [List.foldr]
        omega
      · have := ih h
        simp only [List.foldr]
        omega

theorem foldr_max_mem (L : List Nat) :
    L.foldr max 0 ∈ L ∨ L.foldr max 0 = 0 := by
  induction L with
  | nil => right; rfl
  | cons a t ih =>
      simp only [List.foldr]
      rcases le_total a (t.foldr max 0) with hab | hab
      · rcases ih with hmem | hzero
        · left
          rw [Nat.max_eq_right hab]
          exact List.mem_cons_of_mem a hmem
        · left
          have : max a (t.foldr max 0) = a := by omega
          rw [this]
          exact List.mem_cons_self a t
      · left
        rw [Nat.max_eq_left hab]
        exact List.mem_cons_self a t

theorem getD_mem {L : List Nat} {i : Nat} (h : i < L.length) :
    L.getD i 0 ∈ L := by
  rw [List.getD_eq_getElem _ _ h]
  exact List.getElem_mem h

theorem zero_mem_manacherNew (s : List α) : 0 ∈ manacherNew s := by
  have h0 := manacherNew_zero s
  have hl : 0 < (manacherNew s).length := by
    rw [manacherNew_length]
    exact msLen_pos s
  rw [← h0]
  exact getD_mem hl

theorem max_palindrome_len_mem (s : List α) :
    max_palindrome_len (manacherNew s) ∈ manacherNew s := by
  rcases foldr_max_mem (manacherNew s) with h | h
  · exact h
  · rw [max_palindrome_len, h]
    exact zero_mem_manacherNew s

theorem hasPalOfLen_iff {s : List α} {L : Nat} :
    hasPalOfLen s L = true ↔
      ∃ l, l + L ≤ s.length ∧
        extract s l (l + L) = (extract s l (l + L)).reverse := by
  simp only [hasPalOfLen, List.any_eq_true, List.mem_range,
    Bool.and_eq_true, decide_eq_true_eq]
  constructor
  · rintro ⟨l, -, h1, h2⟩
    exact ⟨l, h1, h2⟩
  · rintro ⟨l, h1, h2⟩
    exact ⟨l, by omega, h1, h2⟩

theorem hasPalOfLen_zero (s : List α) : hasPalOfLen s 0 = true := by
  rw [hasPalOfLen_iff]
  exact ⟨0, by omega, by simp [extract]⟩

/-- The table maximum equals the longest palindromic-substring length. -/
theorem maxlen_eq_longest (s : List α) :
    max_palindrome_len (manacherNew s) = longestPalSubLen s := by
  apply Nat.le_antisymm
  · -- every table entry is realized by a palindromic substring
    obtain ⟨ti, hti, hval⟩ :=
      List.mem_iff_getElem.mp (max_palindrome_len_mem s)
    rw [manacherNew_length] at hti
    have hg : (manacherNew s).getD ti 0 = max_palindrome_len (manacherNew s) := by
      rw [List.getD_eq_getElem _ _ (by rw [manacherNew_length]; exact hti)]
      exact hval
    have htrue : trueRadius s ti = max_palindrome_len (manacherNew s) := by
      rw [← manacherNew_getD s hti, hg]
    obtain ⟨l, r, hlr, hrn, hsum, hdiff, hpal⟩ := trueRadius_realizes s hti
    have hhas : hasPalOfLen s (max_palindrome_len (manacherNew s)) = true := by
      rw [hasPalOfLen_iff]
      refine ⟨l, by omega, ?_⟩
      have : l + max_palindrome_len (manacherNew s) = r := by omega
      rw [this]
      exact hpal
    exact Nat.le_findGreatest (by rw [← htrue]; exact trueRadius_le_length hti)
      hhas
  · -- the longest palindromic substring shows up in the table
    have hspec : hasPalOfLen s (longestPalSubLen s) = true := by
      rw [longestPalSubLen]
      exact @Nat.findGreatest_spec 0 (fun L => hasPalOfLen s L = true) _
        s.length (Nat.zero_le _) (hasPalOfLen_zero s)
    obtain ⟨l, h1, h2⟩ := hasPalOfLen_iff.mp hspec
    have hpal : palAt s (2 * l + longestPalSubLen s) (longestPalSubLen s) := by
      have := (pal_iff_palAt
        (show l ≤ l + longestPalSubLen s from by omega) h1).mp h2
      have harg1 : l + (l + longestPalSubLen s) = 2 * l + longestPalSubLen s := by
        omega
      have harg2 : l + longestPalSubLen s - l = longestPalSubLen s := by omega
      rw [harg1, harg2] at this
      exact this
    have hidx : 2 * l + longestPalSubLen s < msLen s := by
      simp only [msLen]
      omega
    have hle := le_trueRadius hpal
    calc longestPalSubLen s ≤ trueRadius s (2 * l + longestPalSubLen s) := hle
      _ = (manacherNew s).getD (2 * l + longestPalSubLen s) 0 :=
          (manacherNew_getD s hidx).symm
      _ ≤ max_palindrome_len (manacherNew s) :=
          foldr_max_le (getD_mem (by rw [manacherNew_length]; exact hidx))

/-! ### The center queries -/

theorem odd_longest_at_eq (tbl : List Nat) (si : Nat)
    (h : 2 * si + 1 < tbl.length) :
    odd_longest_at tbl si =
      some (si - tbl.getD (2 * si + 1) 0 / 2,
        si + tbl.getD (2 * si + 1) 0 / 2 + 1) := by
  simp only [odd_longest_at, si_to_ti]
  rw [if_pos h]

theorem even_longest_at_eq (tbl : List Nat) (si : Nat)
    (h : 2 * si + 2 < tbl.length) :
    even_longest_at tbl si (si + 1) =
      some (si + 1 - tbl.getD (2 * si + 2) 0 / 2,
        si + 1 + tbl.getD (2 * si + 2) 0 / 2) := by
  simp only [even_longest_at, si_to_ti, if_true]
  have h2 : 2 * si + 1 + 1 = 2 * si + 2 := rfl
  rw [h2, if_pos h]

/-- `is_palindrome` on a valid range reduces to comparing the requested
length against the true radius at the window center `l + r`. -/
theorem is_palindrome_eq (s : List α) {l r : Nat} (hlr : l ≤ r)
    (hrn : r ≤ s.length) :
    is_palindrome (manacherNew s) l r =
      some (decide (r - l ≤ trueRadius s (l + r))) := by
  rcases Nat.eq_or_lt_of_le hlr with heq | hlt
  · subst heq
    simp [is_palindrome]
  · have hlen := manacherNew_length s
    have hidx : l + r < msLen s := by
      simp only [msLen]
      omega
    have hR := manacherNew_getD s hidx
    have hRle := trueRadius_le hidx
    have hRpar := trueRadius_parity hidx
    simp only [is_palindrome]
    rw [if_neg (by omega)]
    by_cases hpar : (r - l) % 2 = 0
    · rw [if_pos hpar]
      have hc : l + (r - l) / 2 - 1 + 1 = (l + (r - l) / 2 - 1) + 1 := rfl
      have hti : 2 * (l + (r - l) / 2 - 1) + 2 = l + r := by omega
      rw [even_longest_at_eq _ _ (by rw [hlen, hti]; simp only [msLen]; omega)]
      rw [hti, hR]
      simp only [Option.map_some']
      congr 1
      have hnext : l + (r - l) / 2 - 1 + 1 = (l + r) / 2 := by omega
      have hradnext : trueRadius s (l + r) / 2 ≤ (l + r) / 2 := by omega
      have harith :
          l + (r - l) / 2 - 1 + 1 + trueRadius s (l + r) / 2 -
            (l + (r - l) / 2 - 1 + 1 - trueRadius s (l + r) / 2) =
            trueRadius s (l + r) := by omega
      rw [harith]
    · rw [if_neg hpar]
      have hti : 2 * (l + (r - l) / 2) + 1 = l + r := by omega
      rw [odd_longest_at_eq _ _ (by rw [hlen, hti]; exact hidx)]
      rw [hti, hR]
      simp only [Option.map_some']
      congr 1
      have harith :
          l + (r - l) / 2 + trueRadius s (l + r) / 2 + 1 -
            (l + (r - l) / 2 - trueRadius s (l + r) / 2) =
            trueRadius s (l + r) := by omega
      rw [harith]

/-! ### The brute-force check -/

theorem naiveGo_iff (s : List α) (l r : Nat) :
    ∀ fuel d, r ≤ 2 * (d + fuel) + 1 + l →
      (naiveGo s l r fuel d = true ↔
        ∀ e, d ≤ e → 2 * e + 1 + l < r →
          s.getD (l + e) default = s.getD (r - 1 - e) default) := by
  intro fuel
  induction fuel with
  | zero =>
      intro d hd
      constructor
      · intro _ e hde hre
        exact absurd hre (by omega)
      · intro _
        rfl
  | succ fuel ih =>
      intro d hd
      simp only [naiveGo]
      by_cases h1 : r ≤ 2 * d + 1 + l
      · rw [if_pos h1]
        constructor
        · intro _ e hde hre
          exact absurd hre (by omega)
        · intro _
          rfl
      · rw [if_neg h1]
        by_cases h2 : s.getD (l + d) default ≠ s.getD (r - 1 - d) default
        · rw [if_pos h2]
          constructor
          · intro hft
            exact absurd hft (by simp)
          · intro hall
            exact absurd (hall d (le_refl d) (by omega)) h2
        · rw [if_neg h2]
          push_neg at h2
          rw [ih (d + 1) (by omega)]
          constructor
          · intro hall e hde hre
            rcases Nat.eq_or_lt_of_le hde with heq | hlt
            · subst heq
              exact h2
            · exact hall e hlt hre
          · intro hall e hde hre
            exact hall e (by omega) hre

theorem naive_palindrome_iff (s : List α) (l r : Nat) :
    naive_palindrome s l r = true ↔
      ∀ e, 2 * e + 1 + l < r →
        s.getD (l + e) default = s.getD (r - 1 - e) default := by
  rw [naive_palindrome, naiveGo_iff s l r r 0 (by omega)]
  constructor
  · intro h e he
    exact h e (Nat.zero_le e) he
  · intro h e _ he
    exact h e he

/-- The brute-force two-pointer check agrees with the
substring-equals-its-reverse property. -/
theorem naive_iff_pal (s : List α) {l r : Nat} (hlr : l ≤ r)
    (hrn : r ≤ s.length) :
    naive_palindrome s l r = true ↔
      extract s l r = (extract s l r).reverse := by
  rw [naive_palindrome_iff, pal_pointwise hlr hrn]
  constructor
  · intro h j hj
    by_cases hc : 2 * j + 1 + l < r
    · exact h j hc
    · by_cases hm : 2 * j + 1 + l = r
      · have harg : l + j = r - 1 - j := by omega
        rw [harg]
      · have hj2 : 2 * (r - l - 1 - j) + 1 + l < r := by omega
        have := h (r - l - 1 - j) hj2
        have e1 : l + (r - l - 1 - j) = r - 1 - j := by omega
        have e2 : r - 1 - (r - l - 1 - j) = l + j := by omega
        rw [e1, e2] at this
        exact this.symm
  · intro h e he
    exact h e (by omega)

/-! ### The enumeration iterator -/

theorem iterGo_eq (tbl : List Nat) (len : Nat) :
    ∀ fuel i, tbl.length ≤ i + fuel →
      iterGo tbl len fuel i =
        ((List.range' i (tbl.length - i)).filter
            (fun ti =>
              decide (len ≤ tbl.getD ti 0 ∧ tbl.getD ti 0 % 2 = len % 2))).map
          (fun ti => (ti_to_si (ti + 1 - len), ti_to_si (ti + 1 - len) + len)) := by
  intro fuel
  induction fuel with
  | zero =>
      intro i hi
      have h0 : tbl.length - i = 0 := by omega
      simp [iterGo, h0]
  | succ fuel ih =>
      intro i hi
      simp only [iterGo]
      by_cases h1 : i < tbl.length
      · rw [if_pos h1]
        have hrange : List.range' i (tbl.length - i) =
            i :: List.range' (i + 1) (tbl.length - (i + 1)) := by
          have h2 : tbl.length - i = (tbl.length - (i + 1)) + 1 := by omega
          rw [h2, List.range'_succ]
        rw [hrange]
        by_cases h2 : len ≤ tbl.getD i 0 ∧ tbl.getD i 0 % 2 = len % 2
        · rw [if_pos h2, List.filter_cons_of_pos (by simpa using h2),
            List.map_cons]
          rw [ih (i + 1) (by omega)]
        · rw [if_neg h2, List.filter_cons_of_neg (by simpa using h2)]
          exact ih (i + 1) (by omega)
      · rw [if_neg h1]
        have h0 : tbl.length - i = 0 := by omega
        simp [h0]

/-- The yielded stream of `iter_of_len`: one range per transformed
position passing the radius/parity test, in position order. -/
theorem iter_of_len_eq (tbl : List Nat) (len : Nat) :
    iter_of_len tbl len =
      ((List.range tbl.length).filter
          (fun ti =>
            decide (len ≤ tbl.getD ti 0 ∧ tbl.getD ti 0 % 2 = len % 2))).map
        (fun ti => (ti_to_si (ti + 1 - len), ti_to_si (ti + 1 - len) + len)) := by
  rw [iter_of_len, iterGo_eq tbl len tbl.length 0 (by omega),
    List.range_eq_range']
  simp

theorem iter_starts_lt (s : List α) (len : Nat) :
    (iter_of_len (manacherNew s) len).Pairwise (fun p q => p.1 < q.1) := by
  rw [iter_of_len_eq, List.pairwise_map]
  have hpw : ((List.range (manacherNew s).length).filter
      (fun ti => decide (len ≤ (manacherNew s).getD ti 0 ∧
        (manacherNew s).getD ti 0 % 2 = len % 2))).Pairwise (· < ·) :=
    List.Pairwise.sublist (List.filter_sublist _)
      (List.pairwise_lt_range _)
  refine List.Pairwise.imp_of_mem ?_ hpw
  intro a b ha hb hab
  rw [List.mem_filter, List.mem_range, decide_eq_true_eq] at ha hb
  have haR := ha.1
  have hal := ha.2.1
  have hap := ha.2.2
  have hbR := hb.1
  have hbl := hb.2.1
  have hbp := hb.2.2
  rw [manacherNew_length] at haR hbR
  have hapar := manacherNew_parity s haR
  have hbpar := manacherNew_parity s hbR
  have haval := manacherNew_getD s haR
  have hbval := manacherNew_getD s hbR
  have hale : trueRadius s a ≤ a := trueRadius_le haR
  have hble : trueRadius s b ≤ b := trueRadius_le hbR
  unfold ti_to_si
  omega

theorem iter_lens (tbl : List Nat) (len : Nat) :
    ∀ p ∈ iter_of_len tbl len, p.2 - p.1 = len := by
  rw [iter_of_len_eq]
  intro p hp
  obtain ⟨ti, -, hti⟩ := List.mem_map.mp hp
  rw [← hti]
  omega

/-- The trace of the expansion loop is the consecutive block of offsets
from its starting offset up to the first failing offset: no offset below
the start is ever probed. -/
theorem expandTraceFuel_eq (s : List α) (i : Nat) :
    ∀ fuel d, expandTraceFuel s i fuel d =
      List.range' d (expandFuel s i fuel d + 1 - d) := by
  intro fuel
  induction fuel with
  | zero =>
      intro d
      simp [expandTraceFuel, expandFuel]
  | succ fuel ih =>
      intro d
      simp only [expandTraceFuel, expandFuel]
      by_cases h : probeOk s i d = true
      · rw [if_pos h, if_pos h, ih (d + 1)]
        have hge := expandFuel_ge s i fuel (d + 1)
        have h1 : expandFuel s i fuel (d + 1) + 1 - d =
            (expandFuel s i fuel (d + 1) + 1 - (d + 1)) + 1 := by omega
        rw [h1, List.range'_succ]
      · rw [if_neg h, if_neg h]
        simp

theorem expandTrace_eq (s : List α) (i d : Nat) :
    expandTrace s i d = List.range' d (expand s i d + 1 - d) :=
  expandTraceFuel_eq s i (msLen s) d

/-! ### Remaining helper lemmas -/

theorem filter_even_range :
    ∀ n : Nat,
      (List.range (2 * n + 1)).filter (fun ti => decide (ti % 2 = 0)) =
        (List.range (n + 1)).map (fun k => 2 * k) := by
  intro n
  induction n with
  | zero => rfl
  | succ n ih =>
      have e : 2 * (n + 1) + 1 = (2 * n + 1 + 1) + 1 := by omega
      rw [e, List.range_succ, List.range_succ, List.filter_append,
        List.filter_append, ih]
      rw [List.filter_cons_of_neg (by simp only [decide_eq_true_eq]; omega)]
      rw [List.filter_cons_of_pos (by simp only [decide_eq_true_eq]; omega)]
      rw [show (2 * n + 1 + 1) = 2 * (n + 1) from by omega]
      conv_rhs => rw [List.range_succ, List.map_append]
      simp

theorem trueRadius_last (s : List α) : trueRadius s (2 * s.length) = 0 := by
  have hidx : 2 * s.length < msLen s := by
    simp only [msLen]
    omega
  have hb := palAt_bounds (palAt_trueRadius hidx)
  simp only [msLen] at hb
  omega

/-! ### The claims -/

/-- Claim C1: for every sequence `s` and all `0 ≤ l ≤ r ≤ len s`,
`is_palindrome l r` on the index built from `s` returns exactly what the
brute-force two-pointer check `naive_palindrome` returns, and that check
holds iff `s[l+d] = s[r-1-d]` for every `d` with `l+d < r-1-d`; moreover
`is_palindrome` is `true` whenever `l ≥ r`. -/
theorem claim_C1 (s : List α) (l r : Nat) (h1 : l ≤ r) (h2 : r ≤ s.length) :
    is_palindrome (manacherNew s) l r = some (naive_palindrome s l r) ∧
    (naive_palindrome s l r = true ↔
      ∀ d, l + d < r - 1 - d →
        s.getD (l + d) default = s.getD (r - 1 - d) default) ∧
    (∀ l2 r2 : Nat, r2 ≤ l2 → is_palindrome (manacherNew s) l2 r2 = some true) := by
  have hidx : l + r < msLen s := by
    simp only [msLen]
    omega
  have hiff : naive_palindrome s l r = true ↔
      r - l ≤ trueRadius s (l + r) := by
    rw [naive_iff_pal s h1 h2, pal_iff_palAt h1 h2]
    constructor
    · intro h
      exact le_trueRadius h
    · intro h
      exact palAt_mono (palAt_trueRadius hidx) h
  refine ⟨?_, ?_, ?_⟩
  · rw [is_palindrome_eq s h1 h2]
    congr 1
    by_cases hd : r - l ≤ trueRadius s (l + r)
    · rw [hiff.mpr hd]
      simp [hd]
    · have hfalse : naive_palindrome s l r = false := by
        cases hn : naive_palindrome s l r
        · rfl
        · exact absurd (hiff.mp hn) hd
      rw [hfalse]
      simp [hd]
  · rw [naive_palindrome_iff]
    constructor
    · intro h d hd
      exact h d (by omega)
    · intro h d hd
      exact h d (by omega)
  · intro l2 r2 h
    rw [is_palindrome, if_pos h]

/-- Witness for C1: on the byte string of "bananas" with the range
`[1, 4)` (a genuine palindrome "ana"), the index query agrees with the
brute-force check. -/
theorem claim_C1_witness :
    is_palindrome (manacherNew ([98, 97, 110, 97, 110, 97, 115] : List Nat))
        1 4 =
      some (naive_palindrome ([98, 97, 110, 97, 110, 97, 115] : List Nat) 1 4) :=
  (claim_C1 [98, 97, 110, 97, 110, 97, 115] 1 4 (by decide) (by decide)).1

/-- Claim C2: `max_palindrome_len` returns the maximum value stored in the
radius table, and this number equals the length of the longest contiguous
substring of `s` equal to its own reverse; for the empty sequence it is 0. -/
theorem claim_C2 (s : List α) :
    (max_palindrome_len (manacherNew s) ∈ manacherNew s ∧
      ∀ x ∈ manacherNew s, x ≤ max_palindrome_len (manacherNew s)) ∧
    max_palindrome_len (manacherNew s) = longestPalSubLen s ∧
    max_palindrome_len (manacherNew ([] : List α)) = 0 := by
  refine ⟨⟨max_palindrome_len_mem s, fun x hx => foldr_max_le hx⟩,
    maxlen_eq_longest s, ?_⟩
  rw [maxlen_eq_longest]
  rfl

/-- Counterexample to C3 as stated: for the empty input, `iter_of_max()`
does NOT yield no elements; it yields exactly one element, the empty
range `[0, 0)`: with `len = max_palindrome_len = 0`, transformed position
0 passes the radius/parity test (`0 ≥ 0` and `0 % 2 = 0 % 2`). -/
theorem claim_C3_cex :
    iter_of_max (manacherNew ([] : List Nat)) = [(0, 0)] ∧
    iter_of_max (manacherNew ([] : List Nat)) ≠ [] := by
  exact ⟨rfl, by decide⟩

/-- Claim C3, amended: for the empty input sequence,
`max_palindrome_len()` returns 0, and `iter_of_max()` yields exactly one
element, the empty range `[0, 0)` (not zero elements as claimed). -/
theorem claim_C3 (s : List α) (h : s.length = 0) :
    max_palindrome_len (manacherNew s) = 0 ∧
    iter_of_max (manacherNew s) = [(0, 0)] := by
  have hs : s = [] := List.eq_nil_of_length_eq_zero h
  subst hs
  constructor
  · rw [maxlen_eq_longest]
    rfl
  · have h1 : iter_of_max (manacherNew ([] : List α)) = iterGo [0] 0 1 0 :=
      rfl
    have h2 : iterGo ([0] : List Nat) 0 1 0 = [(0, 0)] := by decide
    exact h1.trans h2

/-- Witness for (amended) C3 at the concrete empty sequence of numbers. -/
theorem claim_C3_witness :
    max_palindrome_len (manacherNew ([] : List Nat)) = 0 :=
  (claim_C3 ([] : List Nat) rfl).1

/-- Counterexample to C4 as stated: running the construction on the
two-element sequence `[0, 0]` ("aa"), at transformed index `i = 3` the
state reached has `right = 4 > 3`, so the mirror seeding applies; the
expansion attempt is seeded at offset `min(radius[2·center−3], right−3)
= 1` and NOT at `min(...) + 1 = 2` as the claim states, and the probed
offsets are `[1, 2]`, so the loop does re-probe offset 1 — a pair already
certified equal by the mirror property (`probeOk` holds at offset
1 ≤ min(radius[mirror], right−i)). -/
theorem claim_C4_cex :
    3 < (manacherRun ([0, 0] : List Nat) 2).right ∧
    seedDelta (manacherRun ([0, 0] : List Nat) 2) 3 = 1 ∧
    min ((manacherRun ([0, 0] : List Nat) 2).ans.getD
        (2 * (manacherRun ([0, 0] : List Nat) 2).center - 3) 0)
      ((manacherRun ([0, 0] : List Nat) 2).right - 3) + 1 = 2 ∧
    expandTrace ([0, 0] : List Nat) 3
      (seedDelta (manacherRun ([0, 0] : List Nat) 2) 3) = [1, 2] ∧
    probeOk ([0, 0] : List Nat) 3 1 = true := by
  refine ⟨by decide, by decide, by decide, by decide, by decide⟩

/-- Claim C4, amended: if `i ≥ right` the expansion attempt starts at
offset 1; otherwise it is seeded at offset
`min(radius[2·center − i], right − i)` (without the `+ 1` of the original
claim), and the expansion loop probes exactly the consecutive offsets
from that seed up to the first failing offset — so no offset below the
seed is ever re-probed, and at most the single seeded offset, already
certified equal by the mirror property, is re-checked. -/
theorem claim_C4 (s : List α) (st : MState) (i : Nat) (h : i < st.right) :
    seedDelta st i =
      min (st.ans.getD (2 * st.center - i) 0) (st.right - i) ∧
    (∀ j, st.right ≤ j → seedDelta st j = 1) ∧
    expandTrace s i (seedDelta st i) =
      List.range' (seedDelta st i)
        (expand s i (seedDelta st i) + 1 - seedDelta st i) := by
  refine ⟨?_, ?_, expandTrace_eq s i _⟩
  · rw [seedDelta, if_neg (by omega)]
  · intro j hj
    rw [seedDelta, if_pos hj]

/-- Witness for (amended) C4: the seeding at `i = 3` on the input
`[0, 0]`, where `i` lies strictly inside the best-known window. -/
theorem claim_C4_witness :
    seedDelta (manacherRun ([0, 0] : List Nat) 2) 3 =
      min ((manacherRun ([0, 0] : List Nat) 2).ans.getD
          (2 * (manacherRun ([0, 0] : List Nat) 2).center - 3) 0)
        ((manacherRun ([0, 0] : List Nat) 2).right - 3) :=
  (claim_C4 ([0, 0] : List Nat) (manacherRun ([0, 0] : List Nat) 2) 3
    (by decide)).1

/-- Claim C5: the radius table has length exactly `2n + 1`, its entry at
index 0 is 0, and every entry lies within `[0, n]` (the lower bound is
inherent to `Nat`).  The table is a pure value here — every query takes
it read-only — matching the Rust code, which never mutates `self.0` after
`Manacher::new` returns. -/
theorem claim_C5 (s : List α) :
    (manacherNew s).length = 2 * s.length + 1 ∧
    (manacherNew s).getD 0 0 = 0 ∧
    ∀ x ∈ manacherNew s, x ≤ s.length := by
  refine ⟨?_, manacherNew_zero s, ?_⟩
  · rw [manacherNew_length, msLen]
    omega
  · intro x hx
    obtain ⟨ti, hti, hval⟩ := List.mem_iff_getElem.mp hx
    rw [manacherNew_length] at hti
    have hgd := manacherNew_getD s hti
    rw [List.getD_eq_getElem _ _ (by rw [manacherNew_length]; exact hti)]
      at hgd
    rw [← hval, hgd]
    exact trueRadius_le_length hti

/-- Claim C6: for `0 ≤ si < n`, `odd_longest_at si` returns the half-open
range `[si − rad, si + rad + 1)` with `rad = radius[2·si+1] / 2`, and for
`si + 1 < n`, `even_longest_at si (si+1)` returns
`[si+1 − rad, si+1 + rad)` with `rad = radius[2·si+2] / 2`; in each case
the returned range is a palindromic substring of `s` and is the longest
palindromic range centered at that point (same coordinate sum). -/
theorem claim_C6 (s : List α) (si : Nat) (hsi : si < s.length) :
    (odd_longest_at (manacherNew s) si =
        some (si - (manacherNew s).getD (2 * si + 1) 0 / 2,
          si + (manacherNew s).getD (2 * si + 1) 0 / 2 + 1) ∧
      (manacherNew s).getD (2 * si + 1) 0 / 2 ≤ si ∧
      si + (manacherNew s).getD (2 * si + 1) 0 / 2 + 1 ≤ s.length ∧
      extract s (si - (manacherNew s).getD (2 * si + 1) 0 / 2)
          (si + (manacherNew s).getD (2 * si + 1) 0 / 2 + 1) =
        (extract s (si - (manacherNew s).getD (2 * si + 1) 0 / 2)
          (si + (manacherNew s).getD (2 * si + 1) 0 / 2 + 1)).reverse ∧
      ∀ l r, l ≤ r → r ≤ s.length → l + r = 2 * si + 1 →
        extract s l r = (extract s l r).reverse →
        r - l ≤ 2 * ((manacherNew s).getD (2 * si + 1) 0 / 2) + 1) ∧
    (si + 1 < s.length →
      even_longest_at (manacherNew s) si (si + 1) =
        some (si + 1 - (manacherNew s).getD (2 * si + 2) 0 / 2,
          si + 1 + (manacherNew s).getD (2 * si + 2) 0 / 2) ∧
      (manacherNew s).getD (2 * si + 2) 0 / 2 ≤ si + 1 ∧
      si + 1 + (manacherNew s).getD (2 * si + 2) 0 / 2 ≤ s.length ∧
      extract s (si + 1 - (manacherNew s).getD (2 * si + 2) 0 / 2)
          (si + 1 + (manacherNew s).getD (2 * si + 2) 0 / 2) =
        (extract s (si + 1 - (manacherNew s).getD (2 * si + 2) 0 / 2)
          (si + 1 + (manacherNew s).getD (2 * si + 2) 0 / 2)).reverse ∧
      ∀ l r, l ≤ r → r ≤ s.length → l + r = 2 * si + 2 →
        extract s l r = (extract s l r).reverse →
        r - l ≤ 2 * ((manacherNew s).getD (2 * si + 2) 0 / 2)) := by
  have hlen := manacherNew_length s
  constructor
  · have hidx : 2 * si + 1 < msLen s := by
      simp only [msLen]
      omega
    have hval := manacherNew_getD s hidx
    have hpar := trueRadius_parity hidx
    have hle := trueRadius_le hidx
    have hadd := trueRadius_add_lt hidx
    simp only [msLen] at hadd
    rw [hval]
    set R := trueRadius s (2 * si + 1) with hR
    have hRodd : R % 2 = 1 := by omega
    have hrad2 : 2 * (R / 2) + 1 = R := by omega
    have hradsi : R / 2 ≤ si := by omega
    have hrn : si + R / 2 + 1 ≤ s.length := by omega
    have hsum : (si - R / 2) + (si + R / 2 + 1) = 2 * si + 1 := by omega
    have hdiff : (si + R / 2 + 1) - (si - R / 2) = R := by omega
    refine ⟨?_, hradsi, hrn, ?_, ?_⟩
    · rw [odd_longest_at_eq _ _ (by rw [hlen]; exact hidx), hval]
    · rw [pal_iff_palAt (by omega) hrn, hsum, hdiff]
      exact palAt_trueRadius hidx
    · intro l r h1 h2 h3 hp
      have hpal := (pal_iff_palAt h1 h2).mp hp
      rw [h3] at hpal
      have := le_trueRadius hpal
      omega
  · intro hsi2
    have hidx : 2 * si + 2 < msLen s := by
      simp only [msLen]
      omega
    have hval := manacherNew_getD s hidx
    have hpar := trueRadius_parity hidx
    have hle := trueRadius_le hidx
    have hadd := trueRadius_add_lt hidx
    simp only [msLen] at hadd
    rw [hval]
    set R := trueRadius s (2 * si + 2) with hR
    have hRev : R % 2 = 0 := by omega
    have hrad2 : 2 * (R / 2) = R := by omega
    have hradsi : R / 2 ≤ si + 1 := by omega
    have hrn : si + 1 + R / 2 ≤ s.length := by omega
    have hsum : (si + 1 - R / 2) + (si + 1 + R / 2) = 2 * si + 2 := by omega
    have hdiff : (si + 1 + R / 2) - (si + 1 - R / 2) = R := by omega
    refine ⟨?_, hradsi, hrn, ?_, ?_⟩
    · rw [even_longest_at_eq _ _ (by rw [hlen]; exact hidx), hval]
    · rw [pal_iff_palAt (by omega) hrn, hsum, hdiff]
      exact palAt_trueRadius hidx
    · intro l r h1 h2 h3 hp
      have hpal := (pal_iff_palAt h1 h2).mp hp
      rw [h3] at hpal
      have := le_trueRadius hpal
      omega

/-- Witness for C6: on the byte string of "bananas" at center `si = 3`,
the odd query returns the maximal palindrome "anana" as `[1, 6)`. -/
theorem claim_C6_witness :
    odd_longest_at (manacherNew ([98, 97, 110, 97, 110, 97, 115] : List Nat))
      3 = some (1, 6) :=
  (claim_C6 [98, 97, 110, 97, 110, 97, 115] 3 (by decide)).1.1

/-- Claim C7: `iter_of_len len` yields exactly one half-open range of
length `len` per transformed position whose radius is at least `len` and
of the same parity, in order of increasing transformed position, with
strictly increasing (hence non-decreasing) start indices and no
duplicates; `iter_of_max` is `iter_of_len` at `max_palindrome_len`. -/
theorem claim_C7 (s : List α) (len : Nat) :
    iter_of_len (manacherNew s) len =
      ((List.range (2 * s.length + 1)).filter
          (fun ti =>
            decide (len ≤ (manacherNew s).getD ti 0 ∧
              (manacherNew s).getD ti 0 % 2 = len % 2))).map
        (fun ti => (ti_to_si (ti + 1 - len), ti_to_si (ti + 1 - len) + len)) ∧
    (∀ p ∈ iter_of_len (manacherNew s) len, p.2 - p.1 = len) ∧
    (iter_of_len (manacherNew s) len).Pairwise (fun p q => p.1 < q.1) ∧
    (iter_of_len (manacherNew s) len).Nodup ∧
    iter_of_max (manacherNew s) =
      iter_of_len (manacherNew s) (max_palindrome_len (manacherNew s)) := by
  refine ⟨?_, iter_lens _ len, iter_starts_lt s len, ?_, rfl⟩
  · rw [iter_of_len_eq, manacherNew_length,
      show msLen s = 2 * s.length + 1 from by rw [msLen]; omega]
  · exact (iter_starts_lt s len).imp fun h => by
      intro he
      rw [he] at h
      exact lt_irrefl _ h

/-- Claim C8 (safety of construction): for every index `i` of the
construction loop, at the state actually reached when the body runs for
`i`: the mirror subtractions `2·center − i` and `right − i` cannot
underflow and the mirror lookup is in bounds whenever the `i < right`
branch is taken; the final `delta - 1` cannot underflow since the
expansion result is at least 1; every probe the expansion loop evaluates
has both transformed accesses in bounds (so `ManacherString::get` never
trips its assertion); and the loop terminates having built the full
`2n + 1`-entry table. -/
theorem claim_C8 (s : List α) (i : Nat) (h1 : 1 ≤ i) (h2 : i < msLen s) :
    (i < (manacherRun s (i - 1)).right →
      i ≤ 2 * (manacherRun s (i - 1)).center ∧
      2 * (manacherRun s (i - 1)).center - i <
        (manacherRun s (i - 1)).ans.length ∧
      i ≤ (manacherRun s (i - 1)).right) ∧
    1 ≤ expand s i (seedDelta (manacherRun s (i - 1)) i) ∧
    (∀ d, probeOk s i d = true →
      i + d < msLen s ∧ d ≤ i ∧ i - d < msLen s) ∧
    (manacherNew s).length = msLen s := by
  have hinv : LoopInv s (manacherRun s (i - 1)) i := by
    have := manacherRun_inv s (i - 1) (by omega)
    rw [show i - 1 + 1 = i from by omega] at this
    exact this
  obtain ⟨hlen, hans, hc, hr⟩ := hinv
  refine ⟨?_, ?_, ?_, manacherNew_length s⟩
  · intro hir
    have hcl : (manacherRun s (i - 1)).center < msLen s := by omega
    have := trueRadius_le hcl
    refine ⟨by omega, by omega, by omega⟩
  · rw [seed_expand_eq ⟨hlen, hans, hc, hr⟩ h1 h2]
    omega
  · intro d hd
    rw [probeOk_iff] at hd
    exact ⟨hd.1.1, hd.1.2, by omega⟩

/-- Witness for C8 at the concrete input `[97, 98]` and loop index 2. -/
theorem claim_C8_witness :
    1 ≤ expand ([97, 98] : List Nat) 2
      (seedDelta (manacherRun ([97, 98] : List Nat) 1) 2) :=
  (claim_C8 ([97, 98] : List Nat) 2 (by decide) (by decide)).2.1

/-- Claim C9: `iter_of_len 0` yields exactly the `n + 1` empty ranges
`[0,0), [1,1), …, [n,n)` in order; indeed every transformed position has
a radius of the same parity as its index, so exactly the even (separator)
positions pass the parity filter for `len = 0`. -/
theorem claim_C9 (s : List α) :
    iter_of_len (manacherNew s) 0 =
      (List.range (s.length + 1)).map (fun k => (k, k)) ∧
    ∀ ti, ti < 2 * s.length + 1 →
      (manacherNew s).getD ti 0 % 2 = ti % 2 := by
  constructor
  · rw [iter_of_len_eq]
    have hcong : (List.range (manacherNew s).length).filter
        (fun ti =>
          decide (0 ≤ (manacherNew s).getD ti 0 ∧
            (manacherNew s).getD ti 0 % 2 = 0 % 2)) =
        (List.range (manacherNew s).length).filter
          (fun ti => decide (ti % 2 = 0)) := by
      apply List.filter_congr
      intro x hx
      rw [List.mem_range, manacherNew_length] at hx
      have hparx := manacherNew_parity s hx
      rw [decide_eq_decide]
      constructor
      · intro hh
        omega
      · intro hh
        exact ⟨Nat.zero_le _, by omega⟩
    rw [hcong, manacherNew_length,
      show msLen s = 2 * s.length + 1 from by rw [msLen]; omega,
      filter_even_range, List.map_map]
    apply List.map_congr_left
    intro k hk
    simp only [Function.comp]
    have ht : ti_to_si (2 * k + 1 - 0) = k := by
      unfold ti_to_si
      omega
    rw [ht]
    rfl
  · intro ti hti
    exact manacherNew_parity s (by simp only [msLen]; omega)

/-- Claim C10: for non-empty input, `even_longest_at (n−1) n` passes both
assertions (its transformed index `2n` is within the `2n + 1`-entry
table) and returns the empty range `[n, n)`, because the last transformed
position always has radius 0. -/
theorem claim_C10 (s : List α) (h : 1 ≤ s.length) :
    even_longest_at (manacherNew s) (s.length - 1) s.length =
      some (s.length, s.length) ∧
    (manacherNew s).getD (2 * s.length) 0 = 0 := by
  have hlen := manacherNew_length s
  have hidx : 2 * s.length < msLen s := by
    simp only [msLen]
    omega
  have hzero : trueRadius s (2 * s.length) = 0 := trueRadius_last s
  constructor
  · have he := even_longest_at_eq (manacherNew s) (s.length - 1)
      (by rw [hlen]; simp only [msLen]; omega)
    rw [show 2 * (s.length - 1) + 2 = 2 * s.length from by omega,
      show s.length - 1 + 1 = s.length from by omega] at he
    rw [he, manacherNew_getD s hidx, hzero]
    rfl
  · rw [manacherNew_getD s hidx, hzero]

/-- Witness for C10 on the one-element input `[5]`. -/
theorem claim_C10_witness :
    even_longest_at (manacherNew ([5] : List Nat)) 0 1 = some (1, 1) :=
  (claim_C10 ([5] : List Nat) (by decide)).1
